import Mathlib

/-!
Shallow embedding of the `eca.js` cache engine (`src/easycache.js`) together
with the storage-adapter contract it consumes (`src/adapters/*.js`).

Modelling conventions:
* JS `Map` objects are association lists `List (String × α)` with JS `Map`
  semantics: `set` updates in place when the key is present (keeping its
  position) and appends otherwise; iteration order is list order.
* JS `Set` objects of keys are `List String` with append-if-absent insertion.
* Timestamps and durations are `Int` (`Date.now()` values); each engine call
  observes a single instant `now`, passed as an argument.
* A storage adapter is a record of operations returning `Except Unit _`:
  `.error` models a thrown exception, caught by the engine's try/catch
  blocks exactly where the source catches it.
* JS `undefined` flowing through values is `Option.none`: the default
  serializer `JSON.stringify` maps `undefined` to `undefined`, hence
  `serialize : V → Option S`; the memory adapter stores `Option S` and its
  `get` cannot distinguish a stored `undefined` from absence, as in JS.
* Notification payloads are elided (events carry the kind and key only);
  no property below inspects a payload.
* `setTimeout` timers are modelled as armed entries `key ↦ duration`;
  firing is not modelled (no property below fires a timer).
-/

namespace Eca

abbrev Key := String
abbrev Tag := String

/-- JS `Map.prototype.get`. -/
def mapGet {α : Type} : List (String × α) → String → Option α
  | [], _ => none
  | (k', v) :: t, k => if k' = k then some v else mapGet t k

/-- JS `Map.prototype.set`: update in place if present, else append. -/
def mapSet {α : Type} : List (String × α) → String → α → List (String × α)
  | [], k, v => [(k, v)]
  | (k', v') :: t, k, v => if k' = k then (k, v) :: t else (k', v') :: mapSet t k v

/-- JS `Map.prototype.has`. -/
def mapHas {α : Type} : List (String × α) → String → Bool
  | [], _ => false
  | (k', _) :: t, k => k' = k || mapHas t k

/-- JS `Map.prototype.delete` (ignoring the returned boolean). -/
def mapDelete {α : Type} : List (String × α) → String → List (String × α)
  | [], _ => []
  | (k', v') :: t, k => if k' = k then t else (k', v') :: mapDelete t k

/-- JS `Set.prototype.add` on an insertion-ordered set of keys. -/
def setAdd (l : List Key) (k : Key) : List Key :=
  if k ∈ l then l else l ++ [k]

/-- Per-key metadata held in the engine's in-memory `this.cache` map. -/
structure CacheItem where
  createdAt : Int
  expiresAt : Option Int
  accessCount : Nat
  tags : List Tag
  deriving Repr, DecidableEq

/-- The `this.stats` counters. -/
structure Stats where
  hits : Nat
  misses : Nat
  setCount : Nat
  deletes : Nat
  evictions : Nat
  totalAccesses : Nat
  totalExpired : Nat
  deriving Repr, DecidableEq

def stats0 : Stats := ⟨0, 0, 0, 0, 0, 0, 0⟩

/-- Lifecycle notifications, in emission order (payloads elided). -/
inductive Event where
  | eset (k : Key)
  | eget (k : Key)
  | edel (k : Key)
  | eexpired (k : Key)
  | eevicted (k : Key)
  | eclear
  | eerror
  deriving Repr, DecidableEq

/-- The storage-adapter contract of section 4.7: five operations, each able
to fail (`.error` = a thrown exception). -/
structure Backend (S : Type) where
  St : Type
  bget : St → Key → Except Unit (Option S × St)
  bset : St → Key → Option S → Except Unit St
  bdel : St → Key → Except Unit (Bool × St)
  bhas : St → Key → Except Unit (Bool × St)
  bclear : St → Except Unit St

/-- `MemoryAdapter` from `src/adapters/memory.js`: a `Map` whose stored
values may themselves be `undefined` (`none`); `get` returns `undefined`
both for an absent key and for a stored `undefined`. Never throws. -/
def memB (S : Type) : Backend S where
  St := List (String × Option S)
  bget st k := .ok ((mapGet st k).getD none, st)
  bset st k v := .ok (mapSet st k v)
  bdel st k := .ok (mapHas st k, mapDelete st k)
  bhas st k := .ok (mapHas st k, st)
  bclear _ := .ok []

/-- An adapter every operation of which throws, for the backend-error
properties of section 7. -/
def throwB (S : Type) : Backend S where
  St := Unit
  bget _ _ := .error ()
  bset _ _ _ := .error ()
  bdel _ _ := .error ()
  bhas _ _ := .error ()
  bclear _ := .error ()

/-- The recognized configuration surface (section 6) restricted to the
options the engine's operations read. -/
structure Config (V S : Type) where
  maxSize : Nat
  defaultTTL : Int
  slidingTTL : Bool
  enableStats : Bool
  serialize : V → Option S
  deserialize : S → Option V
  maxEntriesPerTag : List (Tag × Nat)

/-- The full engine state: metadata map, armed timers, LRU access order,
tag index, statistics, emitted notifications, and the adapter's own state. -/
structure EngineState (S : Type) (B : Backend S) where
  cache : List (Key × CacheItem)
  timers : List (Key × Int)
  accessOrder : List (Key × Int)
  tagsMap : List (Tag × List Key)
  stats : Stats
  events : List Event
  store : B.St

/-- Return value of the JS methods: the engine itself (`this`) or a
boolean literal. -/
inductive JsRet where
  | self
  | jbool (b : Bool)
  deriving Repr, DecidableEq

/-- JS truthiness of `item.expiresAt && Date.now() > item.expiresAt`:
a `0` timestamp is falsy. -/
def isExpired (expiresAt : Option Int) (now : Int) : Bool :=
  match expiresAt with
  | none => false
  | some e => e != 0 && now > e

/-- The tag-removal loop shared by `delete` (lines 481–491) and the
existing-item branch of `set` (lines 249–259): for each tag, drop the key
from the tag's bucket and remove the bucket when it becomes empty. -/
def removeKeyFromTags (tm : List (Tag × List Key)) (tags : List Tag) (k : Key) :
    List (Tag × List Key) :=
  tags.foldl (fun tm tag =>
    match mapGet tm tag with
    | none => tm
    | some ks =>
      let ks' := ks.erase k
      if ks'.isEmpty then mapDelete tm tag else mapSet tm tag ks') tm

variable {V S : Type}

/-- The best-effort value read of `delete` (lines 466–471): its own
try/catch ignores a thrown `storage.get` (`value` stays `null`, modelled
as `none`). -/
def bgetTry (B : Backend S) (st : B.St) (k : Key) : Option S × B.St :=
  match B.bget st k with
  | .ok (v, st') => (v, st')
  | .error _ => (none, st)

/-- `EasyCache.delete` (src/easycache.js lines 459–510). The inner
try/catch around the best-effort value read swallows its error; a thrown
`storage.delete` reaches the outer catch, which emits `error` and returns
`this` without touching the in-memory structures. -/
def deleteOp (cfg : Config V S) (B : Backend S) (s : EngineState S B) (k : Key) :
    EngineState S B × JsRet :=
  match mapGet s.cache k with
  | none => (s, .self)
  | some item =>
    let pac := bgetTry B s.store k
    match B.bdel pac.2 k with
    | .error _ => ({ s with store := pac.2, events := s.events ++ [.eerror] }, .self)
    | .ok (_, st2) =>
      let s1 : EngineState S B :=
        { s with
          store := st2
          cache := mapDelete s.cache k
          accessOrder := mapDelete s.accessOrder k
          tagsMap :=
            if 0 < item.tags.length then removeKeyFromTags s.tagsMap item.tags k
            else s.tagsMap
          timers := if mapHas s.timers k then mapDelete s.timers k else s.timers }
      let s2 :=
        if cfg.enableStats then
          { s1 with stats := { s1.stats with deletes := s1.stats.deletes + 1 } }
        else s1
      ({ s2 with events := s2.events ++ [.edel k] }, .self)

/-- The victim scan of `_evictLRU` (lines 788–793): strict `<` keeps the
first entry among equal timestamps. -/
def findOldest (l : List (Key × Int)) : Option (Key × Int) :=
  l.foldl (fun acc p =>
    match acc with
    | none => some p
    | some q => if p.2 < q.2 then some p else acc) none

/-- `EasyCache._evictLRU` (lines 781–801). The `if (oldestKey)` guard is JS
truthiness, so an empty-string victim is skipped. The eviction counter here
is not gated on `enableStats` (line 798). -/
def evictLRU (cfg : Config V S) (B : Backend S) (s : EngineState S B) :
    EngineState S B :=
  if s.accessOrder.isEmpty then s
  else
    match findOldest s.accessOrder with
    | none => s
    | some (vk, _) =>
      if vk = "" then s
      else
        let s' := (deleteOp cfg B s vk).1
        { s' with
          stats := { s'.stats with evictions := s'.stats.evictions + 1 }
          events := s'.events ++ [.eevicted vk] }

/-- One iteration of the tags loop of `set` (lines 291–320): index the key
under the tag, then enforce `maxEntriesPerTag` by deleting the
least-recently-used member of the tag (JS truthiness guards on the cap and
on the victim). -/
def addTagStep (cfg : Config V S) (B : Backend S) (k : Key)
    (s : EngineState S B) (tag : Tag) : EngineState S B :=
  let bucket := (mapGet s.tagsMap tag).getD []
  let bucket1 := setAdd bucket k
  let s := { s with tagsMap := mapSet s.tagsMap tag bucket1 }
  match mapGet cfg.maxEntriesPerTag tag with
  | none => s
  | some cap =>
    if cap ≠ 0 ∧ cap < bucket1.length then
      let victim := bucket1.foldl (fun acc tk =>
        match mapGet s.cache tk, mapGet s.accessOrder tk with
        | some _, some t =>
          match acc with
          | none => some (tk, t)
          | some (_, bt) => if t < bt then some (tk, t) else acc
        | _, _ => acc) none
      match victim with
      | none => s
      | some (vk, _) =>
        if vk = "" then s
        else
          let s' := (deleteOp cfg B s vk).1
          let s'' :=
            if cfg.enableStats then
              { s' with stats := { s'.stats with evictions := s'.stats.evictions + 1 } }
            else s'
          { s'' with events := s''.events ++ [.eevicted vk] }
    else s

/-- `set`, existing-item tag replacement (lines 247–259). -/
def setPhase1 {B : Backend S} (s : EngineState S B) (k : Key) : EngineState S B :=
  match mapGet s.cache k with
  | some item =>
    if 0 < item.tags.length then
      { s with tagsMap := removeKeyFromTags s.tagsMap item.tags k }
    else s
  | none => s

/-- `set`, capacity check (lines 261–264). -/
def setPhase2 (cfg : Config V S) (B : Backend S) (s : EngineState S B)
    (k : Key) : EngineState S B :=
  if cfg.maxSize ≤ s.cache.length ∧ mapHas s.cache k = false then
    evictLRU cfg B s
  else s

/-- `set`, stale-timer cancellation (lines 266–270). -/
def setPhase3 {B : Backend S} (s : EngineState S B) (k : Key) : EngineState S B :=
  if mapHas s.timers k then { s with timers := mapDelete s.timers k } else s

/-- `EasyCache.set` (lines 240–344). Phases in source order: condition
check, old-tag removal, capacity eviction, timer cancellation, TTL
resolution (`ttl !== null ? ttl : defaultTTL`), backend write (a throw
reaches the catch: emit `error`, return `this`), metadata + access-order
insertion, tags loop with per-tag caps, timer arming, stats, `set` event. -/
def setOp (cfg : Config V S) (B : Backend S) (s : EngineState S B) (k : Key)
    (v : V) (ttl : Option Int) (tags : List Tag)
    (condition : Option (Key → V → Bool)) (now : Int) :
    EngineState S B × JsRet :=
  if (condition.map (fun c => c k v)).getD true = false then (s, .jbool false)
  else
    let s3 := setPhase3 (setPhase2 cfg B (setPhase1 s k) k) k
    let effectiveTTL := ttl.getD cfg.defaultTTL
    let expiresAt : Option Int :=
      if 0 < effectiveTTL then some (now + effectiveTTL) else none
    match B.bset s3.store k (cfg.serialize v) with
    | .error _ => ({ s3 with events := s3.events ++ [.eerror] }, .self)
    | .ok st =>
      let item : CacheItem := ⟨now, expiresAt, 0, tags⟩
      let s4 : EngineState S B :=
        { s3 with
          store := st
          cache := mapSet s3.cache k item
          accessOrder := mapSet s3.accessOrder k now }
      let s5 := tags.foldl (addTagStep cfg B k) s4
      let s6 :=
        if 0 < effectiveTTL then { s5 with timers := mapSet s5.timers k effectiveTTL }
        else s5
      let s7 :=
        if cfg.enableStats then
          { s6 with stats := { s6.stats with setCount := s6.stats.setCount + 1 } }
        else s6
      ({ s7 with events := s7.events ++ [.eset k] }, .self)

/-- `EasyCache.get` (lines 351–422). Miss on absent metadata; lazy
expiration via `delete`; backend read (a throw: emit `error`, count a miss,
return `undefined`); the undefined-value self-healing purge (lines
379–387) removes metadata and access order but not tag memberships; on a
confirmed hit, bump `accessCount`, refresh the LRU stamp, and under
sliding TTL re-arm with `expiresAt - createdAt`. -/
def getOp (cfg : Config V S) (B : Backend S) (s0 : EngineState S B) (k : Key)
    (now : Int) : EngineState S B × Option V :=
  let s :=
    if cfg.enableStats then
      { s0 with stats := { s0.stats with totalAccesses := s0.stats.totalAccesses + 1 } }
    else s0
  let bumpMiss : EngineState S B → EngineState S B := fun s =>
    if cfg.enableStats then
      { s with stats := { s.stats with misses := s.stats.misses + 1 } }
    else s
  match mapGet s.cache k with
  | none => (bumpMiss s, none)
  | some item =>
    if isExpired item.expiresAt now then
      (bumpMiss (deleteOp cfg B s k).1, none)
    else
      match B.bget s.store k with
      | .error _ => (bumpMiss { s with events := s.events ++ [.eerror] }, none)
      | .ok (ov, st1) =>
        let s := { s with store := st1 }
        match ov.bind cfg.deserialize with
        | none =>
          (bumpMiss
            { s with
              cache := mapDelete s.cache k
              accessOrder := mapDelete s.accessOrder k }, none)
        | some v =>
          let item1 := { item with accessCount := item.accessCount + 1 }
          let s :=
            { s with
              cache := mapSet s.cache k item1
              accessOrder := mapSet s.accessOrder k now }
          let s :=
            match item.expiresAt with
            | some e =>
              if cfg.slidingTTL && e != 0 then
                let currentTTL := e - item.createdAt
                { s with
                  cache := mapSet s.cache k { item1 with expiresAt := some (now + currentTTL) }
                  timers := mapSet s.timers k currentTTL }
              else s
            | none => s
          let s :=
            if cfg.enableStats then
              { s with stats := { s.stats with hits := s.stats.hits + 1 } }
            else s
          ({ s with events := s.events ++ [.eget k] }, some v)

/-- `EasyCache.has` (lines 429–452): lazy expiration, then a backend
confirmation whose failure returns `false` with no `error` event; a
backend miss purges metadata and access order (but not tag memberships). -/
def hasOp (cfg : Config V S) (B : Backend S) (s : EngineState S B) (k : Key)
    (now : Int) : EngineState S B × Bool :=
  match mapGet s.cache k with
  | none => (s, false)
  | some item =>
    if isExpired item.expiresAt now then ((deleteOp cfg B s k).1, false)
    else
      match B.bhas s.store k with
      | .error _ => (s, false)
      | .ok (b, st') =>
        if b then ({ s with store := st' }, true)
        else
          ({ s with
             store := st'
             cache := mapDelete s.cache k
             accessOrder := mapDelete s.accessOrder k }, false)

/-- `EasyCache.clear` (lines 515–536): clears the backend, the timers, the
metadata map and the access order — the tag index is left untouched by the
source. -/
def clearOp (cfg : Config V S) (B : Backend S) (s : EngineState S B) :
    EngineState S B × JsRet :=
  match B.bclear s.store with
  | .error _ => ({ s with events := s.events ++ [.eerror] }, .self)
  | .ok st' =>
    ({ s with
       store := st'
       cache := []
       timers := []
       accessOrder := []
       events := s.events ++ [.eclear] }, .self)

/-- The statistics snapshot of `getStats` (lines 566–574):
`hits / (hits + misses) || 0` — `0/0` is `NaN` in JS and `NaN || 0` is 0. -/
def hitRate (st : Stats) : ℚ :=
  if st.hits + st.misses = 0 then 0
  else (st.hits : ℚ) / ((st.hits : ℚ) + (st.misses : ℚ))

/-- Number of `evicted` notifications in a log. -/
def evictedCount (l : List Event) : Nat :=
  l.countP (fun e => match e with | .eevicted _ => true | _ => false)

/-- Number of `error` notifications in a log. -/
def errorCount (l : List Event) : Nat :=
  l.countP (fun e => match e with | .eerror => true | _ => false)

/-- The key set indexed under a tag (empty when the tag is absent). -/
def bucketOf (tm : List (Tag × List Key)) (t : Tag) : List Key :=
  (mapGet tm t).getD []

/-- Fresh engine state over the memory adapter (constructor, lines 181–193). -/
def empty0 (S : Type) : EngineState S (memB S) :=
  { cache := [], timers := [], accessOrder := [], tagsMap := []
    stats := stats0, events := [], store := [] }

/-- Fresh engine state over the always-throwing adapter. -/
def emptyT (S : Type) : EngineState S (throwB S) :=
  { cache := [], timers := [], accessOrder := [], tagsMap := []
    stats := stats0, events := [], store := () }

/-- Default-flavoured configuration over `Nat` values (identity
serialization): `maxSize 1000`, `defaultTTL 0`, sliding off, stats on. -/
def cfgN : Config Nat Nat :=
  { maxSize := 1000, defaultTTL := 0, slidingTTL := false, enableStats := true
    serialize := some, deserialize := some, maxEntriesPerTag := [] }

/-- `cfgN` with `maxSize := 2`, for the LRU scenario. -/
def cfgMax2 : Config Nat Nat := { cfgN with maxSize := 2 }

/-- `cfgN` with sliding TTL enabled. -/
def cfgSlide : Config Nat Nat := { cfgN with slidingTTL := true }

/-- `cfgN` with `defaultTTL := 100`, for TTL-resolution scenarios. -/
def cfgD100 : Config Nat Nat := { cfgN with defaultTTL := 100 }

/-- Values that may serialize to `undefined`: `none` stands for the JS
value `undefined`, whose default serialization `JSON.stringify(undefined)`
is itself `undefined`. -/
def cfgU : Config (Option Nat) Nat :=
  { maxSize := 1000, defaultTTL := 0, slidingTTL := false, enableStats := true
    serialize := id, deserialize := fun s => some (some s), maxEntriesPerTag := [] }

/-- Bool well-formedness of the key maps: no duplicate keys in the
metadata map, access order, or timers (true of every reachable state). -/
def wfKeysB (s : EngineState S B) : Bool :=
  decide ((s.cache.map Prod.fst).Nodup) &&
  decide ((s.accessOrder.map Prod.fst).Nodup) &&
  decide ((s.timers.map Prod.fst).Nodup)

/-- Bool well-formedness of the tag index: unique tags, duplicate-free
buckets, and every indexed key's metadata carries the tag
(the section-3 invariant direction used by `delete`). -/
def tagWFB (s : EngineState S B) : Bool :=
  decide ((s.tagsMap.map Prod.fst).Nodup) &&
  s.tagsMap.all (fun p => decide p.2.Nodup) &&
  s.tagsMap.all (fun p => p.2.all (fun k' =>
    match mapGet s.cache k' with
    | some it => decide (p.1 ∈ it.tags)
    | none => false))

/-- Bool agreement of the metadata and access-order key sets
(the section-3 AccessOrder invariant). -/
def keysAgreeB (s : EngineState S B) : Bool :=
  s.cache.all (fun p => mapHas s.accessOrder p.1) &&
  s.accessOrder.all (fun p => mapHas s.cache p.1)

/-- Section-8 LRU scenario: `maxSize = 2`, three distinct new keys
inserted in order at increasing times. -/
def lruScenario : EngineState Nat (memB Nat) :=
  (setOp cfgMax2 (memB Nat)
    ((setOp cfgMax2 (memB Nat)
      ((setOp cfgMax2 (memB Nat) (empty0 Nat) "k1" 1 none [] none 0).1)
      "k2" 2 none [] none 1).1)
    "k3" 3 none [] none 2).1

/-- Base state for the statistics trace: one entry `"k" ↦ 5`, no TTL. -/
def c9base : EngineState Nat (memB Nat) :=
  (setOp cfgN (memB Nat) (empty0 Nat) "k" 5 none [] none 0).1

/-- `n` consecutive hits: repeated `get` of the present key. -/
def applyHits : Nat → EngineState Nat (memB Nat) → EngineState Nat (memB Nat)
  | 0, s => s
  | n + 1, s => applyHits n (getOp cfgN (memB Nat) s "k" 0).1

/-- `n` consecutive misses: repeated `get` of an absent key. -/
def applyMisses : Nat → EngineState Nat (memB Nat) → EngineState Nat (memB Nat)
  | 0, s => s
  | n + 1, s => applyMisses n (getOp cfgN (memB Nat) s "absent" 0).1

/-- State after exactly `H` hits and `M` misses (no resets in between). -/
def hitMissTrace (H M : Nat) : EngineState Nat (memB Nat) :=
  applyMisses M (applyHits H c9base)

end Eca

namespace Eca

theorem mapGet_mapSet_self {α : Type} (m : List (String × α)) (k : String) (v : α) :
    mapGet (mapSet m k v) k = some v := by
  induction m with
  | nil => simp [mapSet, mapGet]
  | cons p t ih =>
    obtain ⟨k', v'⟩ := p
    by_cases h : k' = k <;> simp [mapSet, mapGet, h, ih]

theorem mapGet_mem {α : Type} {m : List (String × α)} {k : String} {v : α}
    (h : mapGet m k = some v) : (k, v) ∈ m := by
  induction m with
  | nil => simp [mapGet] at h
  | cons p t ih =>
    obtain ⟨k', v'⟩ := p
    by_cases hk : k' = k
    · subst hk
      simp [mapGet] at h
      simp [h]
    · simp [mapGet, hk] at h
      exact List.mem_cons_of_mem _ (ih h)

theorem mapHas_eq_isSome {α : Type} (m : List (String × α)) (k : String) :
    mapHas m k = (mapGet m k).isSome := by
  induction m with
  | nil => simp [mapHas, mapGet]
  | cons p t ih =>
    obtain ⟨k', v'⟩ := p
    by_cases h : k' = k <;> simp [mapHas, mapGet, h, ih]

theorem mapDelete_fst_sublist {α : Type} (m : List (String × α)) (k : String) :
    ((mapDelete m k).map Prod.fst).Sublist (m.map Prod.fst) := by
  induction m with
  | nil => simp [mapDelete]
  | cons p t ih =>
    obtain ⟨k', v'⟩ := p
    by_cases h : k' = k
    · simpa [mapDelete, h] using (List.sublist_cons_self _ _)
    · simpa [mapDelete, h] using ih.cons₂ k'

theorem mapDelete_nodup {α : Type} {m : List (String × α)} (k : String)
    (h : (m.map Prod.fst).Nodup) : ((mapDelete m k).map Prod.fst).Nodup :=
  (mapDelete_fst_sublist m k).nodup h

theorem mapGet_mapDelete_self {α : Type} {m : List (String × α)} {k : String}
    (h : (m.map Prod.fst).Nodup) : mapGet (mapDelete m k) k = none := by
  induction m with
  | nil => simp [mapDelete, mapGet]
  | cons p t ih =>
    obtain ⟨k', v'⟩ := p
    simp only [List.map_cons, List.nodup_cons] at h
    by_cases hk : k' = k
    · subst hk
      simp only [mapDelete, if_pos rfl]
      cases hg : mapGet t k' with
      | none => exact hg
      | some w => exact absurd (List.mem_map_of_mem Prod.fst (mapGet_mem hg)) h.1
    · simp [mapDelete, mapGet, hk, ih h.2]

theorem mapHas_mapDelete_self {α : Type} {m : List (String × α)} {k : String}
    (h : (m.map Prod.fst).Nodup) : mapHas (mapDelete m k) k = false := by
  rw [mapHas_eq_isSome, mapGet_mapDelete_self h]
  rfl

theorem mem_mapSet {α : Type} {m : List (String × α)} {k : String} {v : α}
    {p : String × α} (h : p ∈ mapSet m k v) : p = (k, v) ∨ p ∈ m := by
  induction m with
  | nil => simpa [mapSet] using h
  | cons q t ih =>
    obtain ⟨k', v'⟩ := q
    by_cases hk : k' = k
    · simp only [mapSet, if_pos hk] at h
      rcases List.mem_cons.mp h with h | h
      · exact Or.inl h
      · exact Or.inr (List.mem_cons_of_mem _ h)
    · simp only [mapSet, if_neg hk] at h
      rcases List.mem_cons.mp h with h | h
      · exact Or.inr (by simp [h])
      · rcases ih h with h | h
        · exact Or.inl h
        · exact Or.inr (List.mem_cons_of_mem _ h)

theorem fst_mem_mapSet {α : Type} {m : List (String × α)} {k a : String}
    {v : α} (h : a ∈ (mapSet m k v).map Prod.fst) :
    a = k ∨ a ∈ m.map Prod.fst := by
  rcases List.mem_map.mp h with ⟨p, hp, rfl⟩
  rcases mem_mapSet hp with rfl | hp
  · exact Or.inl rfl
  · exact Or.inr (List.mem_map_of_mem Prod.fst hp)

theorem mapSet_fst_nodup {α : Type} {m : List (String × α)} (k : String)
    (v : α) (h : (m.map Prod.fst).Nodup) :
    ((mapSet m k v).map Prod.fst).Nodup := by
  induction m with
  | nil => simp [mapSet]
  | cons q t ih =>
    obtain ⟨k', v'⟩ := q
    simp only [List.map_cons, List.nodup_cons] at h
    by_cases hk : k' = k
    · subst hk
      simpa [mapSet, List.nodup_cons] using h
    · simp only [mapSet, if_neg hk, List.map_cons, List.nodup_cons]
      refine ⟨fun hc => ?_, ih h.2⟩
      rcases fst_mem_mapSet hc with h' | h'
      · exact hk h'
      · exact h.1 h'

theorem mem_mapSet_eq_of_fst {α : Type} {m : List (String × α)} {k : String}
    {v : α} {p : String × α} (hnd : (m.map Prod.fst).Nodup)
    (h : p ∈ mapSet m k v) (hfst : p.1 = k) : p = (k, v) := by
  induction m with
  | nil =>
    simpa [mapSet] using h
  | cons q t ih =>
    obtain ⟨k', v'⟩ := q
    simp only [List.map_cons, List.nodup_cons] at hnd
    by_cases hk : k' = k
    · subst hk
      simp only [mapSet, if_pos rfl] at h
      rcases List.mem_cons.mp h with h | h
      · exact h
      · exact absurd (hfst ▸ List.mem_map_of_mem Prod.fst h) hnd.1
    · simp only [mapSet, if_neg hk] at h
      rcases List.mem_cons.mp h with h | h
      · exact absurd (hfst ▸ congrArg Prod.fst h).symm hk
      · exact ih hnd.2 h

theorem mem_mapDelete {α : Type} {m : List (String × α)} {k : String}
    {p : String × α} (h : p ∈ mapDelete m k) : p ∈ m := by
  induction m with
  | nil => simpa [mapDelete] using h
  | cons q t ih =>
    obtain ⟨k', v'⟩ := q
    by_cases hk : k' = k
    · simp only [mapDelete, if_pos hk] at h
      exact List.mem_cons_of_mem _ h
    · simp only [mapDelete, if_neg hk] at h
      rcases List.mem_cons.mp h with h | h
      · simp [h]
      · exact List.mem_cons_of_mem _ (ih h)

theorem mapGet_eq_of_mem {α : Type} {m : List (String × α)} {p : String × α}
    (hnd : (m.map Prod.fst).Nodup) (h : p ∈ m) : mapGet m p.1 = some p.2 := by
  induction m with
  | nil => simp at h
  | cons q t ih =>
    obtain ⟨k', v'⟩ := q
    simp only [List.map_cons, List.nodup_cons] at hnd
    rcases List.mem_cons.mp h with h | h
    · subst h
      simp [mapGet]
    · have hne : k' ≠ p.1 := by
        intro hc
        exact hnd.1 (hc ▸ List.mem_map_of_mem Prod.fst h)
      simp [mapGet, hne, ih hnd.2 h]

theorem mapSet_length {α : Type} (m : List (String × α)) (k : String) (v : α) :
    (mapSet m k v).length = if mapHas m k then m.length else m.length + 1 := by
  induction m with
  | nil => simp [mapSet, mapHas]
  | cons q t ih =>
    obtain ⟨k', v'⟩ := q
    by_cases h : k' = k
    · simp [mapSet, mapHas, h]
    · simp only [mapSet, if_neg h, mapHas, List.length_cons, ih]
      by_cases ht : mapHas t k <;> simp [ht, h]

theorem mapDelete_length_le {α : Type} (m : List (String × α)) (k : String) :
    (mapDelete m k).length ≤ m.length := by
  induction m with
  | nil => simp [mapDelete]
  | cons q t ih =>
    obtain ⟨k', v'⟩ := q
    by_cases h : k' = k
    · simp only [mapDelete, if_pos h, List.length_cons]
      omega
    · simp only [mapDelete, if_neg h, List.length_cons]
      omega

theorem mapDelete_length_of_has {α : Type} {m : List (String × α)} {k : String}
    (h : mapHas m k = true) : (mapDelete m k).length + 1 = m.length := by
  induction m with
  | nil => simp [mapHas] at h
  | cons q t ih =>
    obtain ⟨k', v'⟩ := q
    by_cases hk : k' = k
    · simp [mapDelete, hk]
    · have h' : mapHas t k = true := by simpa [mapHas, hk] using h
      simp only [mapDelete, if_neg hk, List.length_cons, ih h']

/-- Unfolding equation of `delete` on an absent key: exact no-op. -/
theorem deleteOp_none {cfg : Config V S} {B : Backend S} {s : EngineState S B}
    {k : Key} (hg : mapGet s.cache k = none) : deleteOp cfg B s k = (s, .self) := by
  simp [deleteOp, hg]

/-- Unfolding equation of `delete` when the key is present and the backend
delete succeeds. -/
theorem deleteOp_eq_ok (cfg : Config V S) {B : Backend S} {s : EngineState S B}
    {k : Key} {item : CacheItem} {b : Bool} {u : B.St}
    (hg : mapGet s.cache k = some item)
    (hbd : B.bdel (bgetTry B s.store k).2 k = Except.ok (b, u)) :
    deleteOp cfg B s k =
      ({ cache := mapDelete s.cache k
         timers := if mapHas s.timers k then mapDelete s.timers k else s.timers
         accessOrder := mapDelete s.accessOrder k
         tagsMap :=
           if 0 < item.tags.length then removeKeyFromTags s.tagsMap item.tags k
           else s.tagsMap
         stats :=
           if cfg.enableStats then { s.stats with deletes := s.stats.deletes + 1 }
           else s.stats
         events := s.events ++ [.edel k]
         store := u }, .self) := by
  simp only [deleteOp, hg, hbd]
  by_cases hs : cfg.enableStats <;> simp [hs]

/-- Unfolding equation of `delete` when the key is present and the backend
delete throws: only an `error` notification, no memory cleanup. -/
theorem deleteOp_eq_err (cfg : Config V S) {B : Backend S} {s : EngineState S B}
    {k : Key} {item : CacheItem} {e : Unit}
    (hg : mapGet s.cache k = some item)
    (hbd : B.bdel (bgetTry B s.store k).2 k = Except.error e) :
    deleteOp cfg B s k =
      ({ s with store := (bgetTry B s.store k).2
                events := s.events ++ [.eerror] }, .self) := by
  simp [deleteOp, hg, hbd]

/-- `delete` appends at most its own notifications to the log. -/
theorem deleteOp_events_suffix (cfg : Config V S) (B : Backend S)
    (s : EngineState S B) (k : Key) :
    ∃ l, ((deleteOp cfg B s k).1).events = s.events ++ l := by
  cases hg : mapGet s.cache k with
  | none => exact ⟨[], by simp [deleteOp_none hg]⟩
  | some item =>
    cases hbd : B.bdel (bgetTry B s.store k).2 k with
    | error e => exact ⟨[.eerror], by simp [deleteOp_eq_err cfg hg hbd]⟩
    | ok p => exact ⟨[.edel k], by simp [deleteOp_eq_ok cfg hg (b := p.1) (u := p.2) (by simpa using hbd)]⟩

/-- `delete` never grows the metadata map. -/
theorem deleteOp_cache_length_le (cfg : Config V S) (B : Backend S)
    (s : EngineState S B) (k : Key) :
    ((deleteOp cfg B s k).1).cache.length ≤ s.cache.length := by
  cases hg : mapGet s.cache k with
  | none => simp [deleteOp_none hg]
  | some item =>
    cases hbd : B.bdel (bgetTry B s.store k).2 k with
    | error e => simp [deleteOp_eq_err cfg hg hbd]
    | ok p =>
      have := deleteOp_eq_ok cfg hg (b := p.1) (u := p.2) (by simpa using hbd)
      simp [this, mapDelete_length_le]

theorem mem_mapDelete_fst_ne {α : Type} {m : List (String × α)} {k : String}
    {p : String × α} (hnd : (m.map Prod.fst).Nodup) (h : p ∈ mapDelete m k) :
    p.1 ≠ k := by
  intro hc
  have hnd' := mapDelete_nodup (m := m) k hnd
  have := mapGet_eq_of_mem hnd' h
  rw [hc, mapGet_mapDelete_self hnd] at this
  exact Option.noConfusion this

/-- After the tag-removal loop runs over a tag list covering every bucket
that holds `k`, no bucket holds `k` any more. -/
theorem removeKeyFromTags_not_mem :
    ∀ (tags : List Tag) (tm : List (Tag × List Key)) (k : Key),
    (tm.map Prod.fst).Nodup →
    (∀ p ∈ tm, p.2.Nodup) →
    (∀ p ∈ tm, k ∈ p.2 → p.1 ∈ tags) →
    ∀ t, k ∉ bucketOf (removeKeyFromTags tm tags k) t := by
  intro tags
  induction tags with
  | nil =>
    intro tm k _ _ h3 t hk
    unfold removeKeyFromTags at hk
    simp only [List.foldl_nil] at hk
    unfold bucketOf at hk
    cases hg : mapGet tm t with
    | none => rw [hg] at hk; simp at hk
    | some ks =>
      rw [hg] at hk
      exact absurd (h3 _ (mapGet_mem hg) hk) (by simp)
  | cons tag rest ih =>
    intro tm k hnd hbn h3 t
    have hstep : removeKeyFromTags tm (tag :: rest) k =
        removeKeyFromTags
          (match mapGet tm tag with
            | none => tm
            | some ks =>
              let ks' := ks.erase k
              if ks'.isEmpty then mapDelete tm tag else mapSet tm tag ks') rest k := rfl
    rw [hstep]
    cases hg : mapGet tm tag with
    | none =>
      simp only
      refine ih tm k hnd hbn ?_ t
      intro p hp hk
      have := h3 p hp hk
      rcases List.mem_cons.mp this with h | h
      · exfalso
        have := mapGet_eq_of_mem hnd hp
        rw [h] at this
        rw [this] at hg
        exact Option.noConfusion hg
      · exact h
    | some ks =>
      have hksmem : (tag, ks) ∈ tm := mapGet_mem hg
      have hksnd : ks.Nodup := hbn _ hksmem
      by_cases hemp : (ks.erase k).isEmpty
      · simp only [hemp, if_pos]
        refine ih (mapDelete tm tag) k (mapDelete_nodup tag hnd)
          (fun p hp => hbn p (mem_mapDelete hp)) ?_ t
        intro p hp hk
        have hne := mem_mapDelete_fst_ne hnd hp
        have := h3 p (mem_mapDelete hp) hk
        rcases List.mem_cons.mp this with h | h
        · exact absurd h hne
        · exact h
      · simp only [hemp, if_neg, Bool.false_eq_true, not_false_eq_true]
        refine ih (mapSet tm tag (ks.erase k)) k (mapSet_fst_nodup tag _ hnd) ?_ ?_ t
        · intro p hp
          rcases mem_mapSet hp with rfl | hp
          · exact hksnd.erase k
          · exact hbn p hp
        · intro p hp hk
          by_cases hf : p.1 = tag
          · have := mem_mapSet_eq_of_fst hnd hp hf
            subst this
            exact absurd ((hksnd.mem_erase_iff).mp hk).1 (by simp)
          · rcases mem_mapSet hp with rfl | hp
            · exact absurd rfl hf
            · have := h3 p hp hk
              rcases List.mem_cons.mp this with h | h
              · exact absurd h hf
              · exact h

theorem deleteOp_timers_shape (cfg : Config V S) (B : Backend S)
    (s : EngineState S B) (k : Key) :
    ((deleteOp cfg B s k).1).timers = s.timers ∨
    ((deleteOp cfg B s k).1).timers = mapDelete s.timers k := by
  cases hg : mapGet s.cache k with
  | none => exact Or.inl (by simp [deleteOp_none hg])
  | some item =>
    cases hbd : B.bdel (bgetTry B s.store k).2 k with
    | error e => exact Or.inl (by simp [deleteOp_eq_err cfg hg hbd])
    | ok p =>
      have heq := deleteOp_eq_ok cfg hg (b := p.1) (u := p.2) (by simpa using hbd)
      by_cases ht : mapHas s.timers k
      · exact Or.inr (by simp [heq, ht])
      · exact Or.inl (by simp [heq, ht])

theorem deleteOp_timers_nodup (cfg : Config V S) (B : Backend S)
    (s : EngineState S B) (k : Key) (h : (s.timers.map Prod.fst).Nodup) :
    (((deleteOp cfg B s k).1).timers.map Prod.fst).Nodup := by
  rcases deleteOp_timers_shape cfg B s k with hs | hs
  · rw [hs]; exact h
  · rw [hs]; exact mapDelete_nodup k h

theorem evictLRU_timers_nodup (cfg : Config V S) (B : Backend S)
    (s : EngineState S B) (h : (s.timers.map Prod.fst).Nodup) :
    ((evictLRU cfg B s).timers.map Prod.fst).Nodup := by
  unfold evictLRU
  by_cases he : s.accessOrder.isEmpty
  · simpa [he] using h
  · simp only [he]
    cases hf : findOldest s.accessOrder with
    | none => exact h
    | some p =>
      obtain ⟨vk, t⟩ := p
      by_cases hv : vk = ""
      · simpa [hv] using h
      · simpa [hv] using deleteOp_timers_nodup cfg B s vk h

/-- `_evictLRU` appends at most eviction/delete/error notifications. -/
theorem evictLRU_events_suffix (cfg : Config V S) (B : Backend S)
    (s : EngineState S B) :
    ∃ l, (evictLRU cfg B s).events = s.events ++ l := by
  unfold evictLRU
  by_cases he : s.accessOrder.isEmpty
  · exact ⟨[], by simp [he]⟩
  · simp only [he]
    cases h : findOldest s.accessOrder with
    | none => exact ⟨[], by simp⟩
    | some p =>
      obtain ⟨vk, t⟩ := p
      by_cases hv : vk = ""
      · exact ⟨[], by simp [hv]⟩
      · obtain ⟨l, hl⟩ := deleteOp_events_suffix cfg B s vk
        exact ⟨l ++ [.eevicted vk], by simp [hv, hl]⟩

/-- Unfolding equation of `set` (no condition) when the backend write
succeeds. -/
theorem setOp_eq_ok (cfg : Config V S) {B : Backend S} {s : EngineState S B}
    {k : Key} {v : V} {ttl : Option Int} {tags : List Tag} {now : Int}
    {u : B.St}
    (hbs : B.bset (setPhase3 (setPhase2 cfg B (setPhase1 s k) k) k).store k
      (cfg.serialize v) = Except.ok u) :
    setOp cfg B s k v ttl tags none now =
      (let s3 := setPhase3 (setPhase2 cfg B (setPhase1 s k) k) k
       let eff := ttl.getD cfg.defaultTTL
       let item : CacheItem := ⟨now, if 0 < eff then some (now + eff) else none, 0, tags⟩
       let s4 : EngineState S B :=
         { s3 with store := u
                   cache := mapSet s3.cache k item
                   accessOrder := mapSet s3.accessOrder k now }
       let s5 := tags.foldl (addTagStep cfg B k) s4
       let s6 := if 0 < eff then { s5 with timers := mapSet s5.timers k eff } else s5
       let s7 :=
         if cfg.enableStats then
           { s6 with stats := { s6.stats with setCount := s6.stats.setCount + 1 } }
         else s6
       ({ s7 with events := s7.events ++ [.eset k] }, .self)) := by
  simp only [setOp, Option.map_none', Option.getD_none]
  rw [if_neg (by simp)]
  rw [hbs]

/-- Unfolding equation of `set` (no condition) when the backend write
throws: the catch emits `error` and returns `this`. -/
theorem setOp_eq_err (cfg : Config V S) {B : Backend S} {s : EngineState S B}
    {k : Key} {v : V} {ttl : Option Int} {tags : List Tag} {now : Int}
    {e : Unit}
    (hbs : B.bset (setPhase3 (setPhase2 cfg B (setPhase1 s k) k) k).store k
      (cfg.serialize v) = Except.error e) :
    setOp cfg B s k v ttl tags none now =
      (let s3 := setPhase3 (setPhase2 cfg B (setPhase1 s k) k) k
       ({ s3 with events := s3.events ++ [.eerror] }, .self)) := by
  simp only [setOp, Option.map_none', Option.getD_none]
  rw [if_neg (by simp)]
  rw [hbs]

/-- Tag replacement touches only the tag index. -/
theorem setPhase1_fields {B : Backend S} (s : EngineState S B) (k : Key) :
    (setPhase1 s k).cache = s.cache ∧ (setPhase1 s k).timers = s.timers ∧
    (setPhase1 s k).accessOrder = s.accessOrder ∧
    (setPhase1 s k).stats = s.stats ∧ (setPhase1 s k).events = s.events ∧
    (setPhase1 s k).store = s.store := by
  unfold setPhase1
  cases mapGet s.cache k with
  | none => exact ⟨rfl, rfl, rfl, rfl, rfl, rfl⟩
  | some item =>
    by_cases h : 0 < item.tags.length <;> simp [h]

/-- With no per-tag caps configured, one tags-loop step only adds the key
to the tag's bucket. -/
theorem addTagStep_nocap {cfg : Config V S} {B : Backend S} (k : Key)
    (s : EngineState S B) (tag : Tag) (hcap : cfg.maxEntriesPerTag = []) :
    addTagStep cfg B k s tag =
      { s with tagsMap :=
          mapSet s.tagsMap tag (setAdd ((mapGet s.tagsMap tag).getD []) k) } := by
  simp [addTagStep, hcap, mapGet]

/-- With no per-tag caps, the tags loop leaves every field but the tag
index unchanged. -/
theorem foldlAddTag_fields {cfg : Config V S} {B : Backend S} (k : Key)
    (hcap : cfg.maxEntriesPerTag = []) :
    ∀ (tags : List Tag) (s : EngineState S B),
    (tags.foldl (addTagStep cfg B k) s).cache = s.cache ∧
    (tags.foldl (addTagStep cfg B k) s).timers = s.timers ∧
    (tags.foldl (addTagStep cfg B k) s).accessOrder = s.accessOrder ∧
    (tags.foldl (addTagStep cfg B k) s).stats = s.stats ∧
    (tags.foldl (addTagStep cfg B k) s).events = s.events ∧
    (tags.foldl (addTagStep cfg B k) s).store = s.store := by
  intro tags
  induction tags with
  | nil => intro s; exact ⟨rfl, rfl, rfl, rfl, rfl, rfl⟩
  | cons tag rest ih =>
    intro s
    rw [List.foldl_cons, addTagStep_nocap k s tag hcap]
    exact ih _

/-- After the stale-timer cancellation, no timer is armed for the key
(given duplicate-free timer keys). -/
theorem setPhase3_timers_not_has {B : Backend S} (s : EngineState S B)
    (k : Key) (hnd : (s.timers.map Prod.fst).Nodup) :
    mapHas (setPhase3 s k).timers k = false := by
  unfold setPhase3
  by_cases h : mapHas s.timers k
  · simp [h, mapHas_mapDelete_self hnd]
  · simpa [h] using (by simpa using h)

theorem setPhase2_timers_nodup (cfg : Config V S) (B : Backend S)
    (s : EngineState S B) (k : Key) (hnd : (s.timers.map Prod.fst).Nodup) :
    ((setPhase2 cfg B s k).timers.map Prod.fst).Nodup := by
  unfold setPhase2
  by_cases h : cfg.maxSize ≤ s.cache.length ∧ mapHas s.cache k = false
  · simpa [h] using evictLRU_timers_nodup cfg B s hnd
  · simpa [h] using hnd

/-- Metadata written by a memory-backed `set` without per-tag caps: the
entry's `expiresAt` comes from the resolved TTL
`ttl !== null ? ttl : defaultTTL`. -/
theorem setOp_mem_cache_get (cfg : Config V S) (s : EngineState S (memB S))
    (k : Key) (v : V) (ttl : Option Int) (tags : List Tag) (now : Int)
    (hcap : cfg.maxEntriesPerTag = []) :
    mapGet ((setOp cfg (memB S) s k v ttl tags none now).1).cache k =
      some ⟨now,
        if 0 < ttl.getD cfg.defaultTTL then some (now + ttl.getD cfg.defaultTTL)
        else none, 0, tags⟩ := by
  rw [setOp_eq_ok cfg rfl]
  simp only
  by_cases hs : cfg.enableStats <;>
    by_cases hp : 0 < ttl.getD cfg.defaultTTL <;>
      simp [hs, hp, (foldlAddTag_fields k hcap tags _).1, mapGet_mapSet_self]

/-- Timer armed by a memory-backed `set` without per-tag caps, positive
resolved TTL. -/
theorem setOp_mem_timers_get_pos (cfg : Config V S) (s : EngineState S (memB S))
    (k : Key) (v : V) (ttl : Option Int) (tags : List Tag) (now : Int)
    (hcap : cfg.maxEntriesPerTag = []) (hp : 0 < ttl.getD cfg.defaultTTL) :
    mapGet ((setOp cfg (memB S) s k v ttl tags none now).1).timers k =
      some (ttl.getD cfg.defaultTTL) := by
  rw [setOp_eq_ok cfg rfl]
  simp only
  by_cases hs : cfg.enableStats <;>
    simp [hs, hp, mapGet_mapSet_self]

/-- No timer armed by a memory-backed `set` without per-tag caps when the
resolved TTL is not positive. -/
theorem setOp_mem_timers_not_has (cfg : Config V S) (s : EngineState S (memB S))
    (k : Key) (v : V) (ttl : Option Int) (tags : List Tag) (now : Int)
    (hcap : cfg.maxEntriesPerTag = []) (hp : ¬ 0 < ttl.getD cfg.defaultTTL)
    (hnd : (s.timers.map Prod.fst).Nodup) :
    mapHas ((setOp cfg (memB S) s k v ttl tags none now).1).timers k = false := by
  have h1 := (setPhase1_fields s k).2.1
  have h2 := setPhase2_timers_nodup cfg (memB S) (setPhase1 s k) k (h1 ▸ hnd)
  have h3 := setPhase3_timers_not_has (setPhase2 cfg (memB S) (setPhase1 s k) k) k h2
  rw [setOp_eq_ok cfg rfl]
  simp only
  by_cases hs : cfg.enableStats <;>
    simp [hs, hp, (foldlAddTag_fields k hcap tags _).2.1, h3]

/-- C8: a `set` whose condition predicate evaluates to false is a pure
no-op — the engine state (metadata, access order, tag index, timers,
storage, statistics, events) is returned unchanged and the call returns
`false`, emitting nothing. -/
theorem claimC8 (cfg : Config V S) (B : Backend S) (s : EngineState S B)
    (k : Key) (v : V) (ttl : Option Int) (tags : List Tag)
    (c : Key → V → Bool) (now : Int) (h : c k v = false) :
    setOp cfg B s k v ttl tags (some c) now = (s, .jbool false) := by
  simp [setOp, h]

/-- Witness for C8 at a concrete input. -/
theorem claimC8_witness :
    (fun (_ : Key) (_ : Nat) => false) "k" 0 = false ∧
    setOp cfgN (memB Nat) (empty0 Nat) "k" 0 none [] (some (fun _ _ => false)) 0
      = (empty0 Nat, .jbool false) :=
  ⟨rfl, claimC8 cfgN (memB Nat) (empty0 Nat) "k" 0 none [] (fun _ _ => false) 0 rfl⟩

/-- C5 counterexample: with `defaultTTL = 100`, a `set` with `ttl = 0`
stores an entry that never expires (`expiresAt = null`, no timer), not an
entry expiring after the configured default — refuting
"a ttl argument of 0 resolves to the configured defaultTTL". -/
theorem claimC5_cx :
    mapGet ((setOp cfgD100 (memB Nat) (empty0 Nat) "k" 0 (some 0) [] none 0).1).cache "k"
      = some ⟨0, none, 0, []⟩
    ∧ mapGet ((setOp cfgD100 (memB Nat) (empty0 Nat) "k" 0 (some 0) [] none 0).1).cache "k"
      ≠ some ⟨0, some 100, 0, []⟩
    ∧ mapHas ((setOp cfgD100 (memB Nat) (empty0 Nat) "k" 0 (some 0) [] none 0).1).timers "k"
      = false := by
  refine ⟨by decide, by decide, by decide⟩

/-- C5 amended: only an absent (`null`) `ttl` resolves to the configured
`defaultTTL`; an explicit `ttl = 0` yields a never-expiring entry
regardless of the default; an absent `ttl` with `defaultTTL = d > 0`
stores expiration `now + d` and arms a timer for `d`; a positive explicit
`ttl` wins over the default. -/
theorem claimC5 (cfg : Config V S) (s : EngineState S (memB S)) (k : Key)
    (v : V) (tags : List Tag) (now : Int)
    (hcap : cfg.maxEntriesPerTag = [])
    (hnd : (s.timers.map Prod.fst).Nodup) :
    (mapGet ((setOp cfg (memB S) s k v (some 0) tags none now).1).cache k
        = some ⟨now, none, 0, tags⟩
      ∧ mapHas ((setOp cfg (memB S) s k v (some 0) tags none now).1).timers k = false)
    ∧ (0 < cfg.defaultTTL →
        mapGet ((setOp cfg (memB S) s k v none tags none now).1).cache k
          = some ⟨now, some (now + cfg.defaultTTL), 0, tags⟩
        ∧ mapGet ((setOp cfg (memB S) s k v none tags none now).1).timers k
          = some cfg.defaultTTL)
    ∧ (∀ t : Int, 0 < t →
        mapGet ((setOp cfg (memB S) s k v (some t) tags none now).1).cache k
          = some ⟨now, some (now + t), 0, tags⟩) := by
  refine ⟨⟨?_, ?_⟩, fun hd => ⟨?_, ?_⟩, fun t htp => ?_⟩
  · simpa using setOp_mem_cache_get cfg s k v (some 0) tags now hcap
  · exact setOp_mem_timers_not_has cfg s k v (some 0) tags now hcap (by simp) hnd
  · simpa [hd] using setOp_mem_cache_get cfg s k v none tags now hcap
  · simpa [hd] using setOp_mem_timers_get_pos cfg s k v none tags now hcap (by simpa using hd)
  · simpa [htp] using setOp_mem_cache_get cfg s k v (some t) tags now hcap

/-- Witness for C5 at a concrete input. -/
theorem claimC5_witness :
    cfgD100.maxEntriesPerTag = [] ∧
    (((empty0 Nat).timers.map Prod.fst).Nodup) ∧
    (mapGet ((setOp cfgD100 (memB Nat) (empty0 Nat) "k" 0 (some 0) [] none 0).1).cache "k"
        = some ⟨0, none, 0, []⟩
      ∧ mapHas ((setOp cfgD100 (memB Nat) (empty0 Nat) "k" 0 (some 0) [] none 0).1).timers "k" = false)
    ∧ (0 < cfgD100.defaultTTL →
        mapGet ((setOp cfgD100 (memB Nat) (empty0 Nat) "k" 0 none [] none 0).1).cache "k"
          = some ⟨0, some (0 + cfgD100.defaultTTL), 0, []⟩
        ∧ mapGet ((setOp cfgD100 (memB Nat) (empty0 Nat) "k" 0 none [] none 0).1).timers "k"
          = some cfgD100.defaultTTL)
    ∧ (∀ t : Int, 0 < t →
        mapGet ((setOp cfgD100 (memB Nat) (empty0 Nat) "k" 0 (some t) [] none 0).1).cache "k"
          = some ⟨0, some (0 + t), 0, []⟩) := by
  refine ⟨rfl, by decide, ?_⟩
  exact claimC5 cfgD100 (empty0 Nat) "k" 0 [] 0 rfl (by decide)

/-- C2 counterexample: sliding TTL does not renew by the original TTL on
every read. With TTL 100 written at time 0, a hit at time 10 renews to
110 (= now + original TTL), but a second hit at time 20 renews to 130 =
20 + (110 − 0), not 120 = now + original TTL, and re-arms the timer for
110, not 100. -/
theorem claimC2_cx :
    (mapGet ((getOp cfgSlide (memB Nat)
        ((setOp cfgSlide (memB Nat) (empty0 Nat) "k" 7 (some 100) [] none 0).1)
        "k" 10).1).cache "k"
      = some ⟨0, some 110, 1, []⟩)
    ∧ (mapGet ((getOp cfgSlide (memB Nat)
        ((getOp cfgSlide (memB Nat)
          ((setOp cfgSlide (memB Nat) (empty0 Nat) "k" 7 (some 100) [] none 0).1)
          "k" 10).1) "k" 20).1).cache "k"
      = some ⟨0, some 130, 2, []⟩)
    ∧ (mapGet ((getOp cfgSlide (memB Nat)
        ((getOp cfgSlide (memB Nat)
          ((setOp cfgSlide (memB Nat) (empty0 Nat) "k" 7 (some 100) [] none 0).1)
          "k" 10).1) "k" 20).1).cache "k"
      ≠ some ⟨0, some 120, 2, []⟩)
    ∧ (mapGet ((getOp cfgSlide (memB Nat)
        ((getOp cfgSlide (memB Nat)
          ((setOp cfgSlide (memB Nat) (empty0 Nat) "k" 7 (some 100) [] none 0).1)
          "k" 10).1) "k" 20).1).timers "k"
      = some 110) := by
  refine ⟨by decide, by decide, by decide, by decide⟩

/-- C2 amended: with sliding TTL enabled, a confirmed hit on an entry with
a finite (truthy) `expiresAt` recomputes `expiresAt` as
`now + (expiresAt − createdAt)` and re-arms the timer for
`expiresAt − createdAt` — this equals the original TTL only while
`expiresAt` still is `createdAt + TTL` (i.e. on the first sliding read);
later reads renew by the original TTL plus the time between the write and
the previous renewal. -/
theorem claimC2 (cfg : Config V S) (s : EngineState S (memB S)) (k : Key)
    (now : Int) (item : CacheItem) (e : Int) (sv : S) (v0 : V)
    (hg : mapGet s.cache k = some item)
    (he : item.expiresAt = some e)
    (hez : e ≠ 0)
    (hnx : ¬ now > e)
    (hsl : cfg.slidingTTL = true)
    (hsv : (mapGet s.store k).getD none = some sv)
    (hde : cfg.deserialize sv = some v0) :
    (getOp cfg (memB S) s k now).2 = some v0
    ∧ mapGet ((getOp cfg (memB S) s k now).1).cache k
      = some ⟨item.createdAt, some (now + (e - item.createdAt)),
              item.accessCount + 1, item.tags⟩
    ∧ mapGet ((getOp cfg (memB S) s k now).1).timers k
      = some (e - item.createdAt) := by
  have hexp : isExpired (some e) now = false := by
    simp [isExpired, hnx]
  by_cases hs : cfg.enableStats <;>
  · simp only [getOp, hs, if_true, if_false, hg, he, hexp, memB, hsv,
      Option.some_bind, hde, hsl, Bool.false_eq_true]
    simp [hez, mapGet_mapSet_self, hexp]

/-- A memory-backed `get` on a key whose backend slot reads as
`undefined` (absent or a stored `undefined`): miss, and the metadata and
access-order entries are purged — through the self-healing branch when
unexpired, through `delete` when expired. -/
theorem getOp_mem_undef_purge (cfg : Config V S) (s : EngineState S (memB S))
    (k : Key) (now : Int) (item : CacheItem)
    (hg : mapGet s.cache k = some item)
    (hndc : (s.cache.map Prod.fst).Nodup)
    (hnda : (s.accessOrder.map Prod.fst).Nodup)
    (hsv : (mapGet s.store k).getD none = none)
    (hs : cfg.enableStats = true) :
    (getOp cfg (memB S) s k now).2 = none
    ∧ ((getOp cfg (memB S) s k now).1).stats.misses = s.stats.misses + 1
    ∧ mapHas ((getOp cfg (memB S) s k now).1).cache k = false
    ∧ mapHas ((getOp cfg (memB S) s k now).1).accessOrder k = false := by
  have hg' : mapGet (EngineState.cache
      { s with stats := { s.stats with totalAccesses := s.stats.totalAccesses + 1 } }) k
      = some item := hg
  by_cases hexp : isExpired item.expiresAt now = true
  · have hdel := deleteOp_eq_ok cfg (B := memB S)
      (s := { s with stats := { s.stats with totalAccesses := s.stats.totalAccesses + 1 } })
      (k := k) hg' rfl
    refine ⟨?_, ?_, ?_, ?_⟩ <;>
      simp [getOp, hs, hg', hexp, hdel, mapHas_mapDelete_self hndc,
        mapHas_mapDelete_self hnda]
  · refine ⟨?_, ?_, ?_, ?_⟩ <;>
      simp [getOp, hs, hg', hexp, memB, hsv, mapHas_mapDelete_self hndc,
        mapHas_mapDelete_self hnda]

/-- C10: a value whose serialization is `undefined` (e.g. the JS value
`undefined` under the default JSON pair) is stored with metadata by `set`,
but can never be retrieved: the next `get` returns `undefined`, counts a
miss, and purges the key's metadata and access-order entries, because the
engine cannot distinguish a stored `undefined` from backend absence. -/
theorem claimC10 (cfg : Config V S) (k : Key) (v : V) (ttl : Option Int)
    (now1 now2 : Int)
    (hser : cfg.serialize v = none)
    (hs : cfg.enableStats = true) :
    mapHas ((setOp cfg (memB S) (empty0 S) k v ttl [] none now1).1).cache k = true
    ∧ (getOp cfg (memB S) (setOp cfg (memB S) (empty0 S) k v ttl [] none now1).1 k now2).2 = none
    ∧ ((getOp cfg (memB S) (setOp cfg (memB S) (empty0 S) k v ttl [] none now1).1 k now2).1).stats.misses
      = ((setOp cfg (memB S) (empty0 S) k v ttl [] none now1).1).stats.misses + 1
    ∧ mapHas ((getOp cfg (memB S) (setOp cfg (memB S) (empty0 S) k v ttl [] none now1).1 k now2).1).cache k = false
    ∧ mapHas ((getOp cfg (memB S) (setOp cfg (memB S) (empty0 S) k v ttl [] none now1).1 k now2).1).accessOrder k = false := by
  have h1 : setPhase1 (empty0 S) k = empty0 S := by
    simp [setPhase1, empty0, mapGet]
  have h2 : setPhase2 cfg (memB S) (empty0 S) k = empty0 S := by
    unfold setPhase2
    by_cases h : cfg.maxSize ≤ (empty0 S).cache.length ∧ mapHas (empty0 S).cache k = false
    · simp [h, evictLRU, empty0]
    · simp [h]
  have h3 : setPhase3 (empty0 S) k = empty0 S := by
    simp [setPhase3, empty0, mapHas]
  have hbs0 : (memB S).bset
      (setPhase3 (setPhase2 cfg (memB S) (setPhase1 (empty0 S) k) k) k).store k
      (cfg.serialize v)
      = Except.ok (mapSet
        (setPhase3 (setPhase2 cfg (memB S) (setPhase1 (empty0 S) k) k) k).store k
        (cfg.serialize v)) := rfl
  have hset1 : (setOp cfg (memB S) (empty0 S) k v ttl [] none now1).1 =
      { cache := [(k, ⟨now1,
          if 0 < ttl.getD cfg.defaultTTL then some (now1 + ttl.getD cfg.defaultTTL) else none,
          0, []⟩)]
        timers := if 0 < ttl.getD cfg.defaultTTL then [(k, ttl.getD cfg.defaultTTL)] else []
        accessOrder := [(k, now1)]
        tagsMap := []
        stats := { stats0 with setCount := 1 }
        events := [.eset k]
        store := [(k, none)] } := by
    rw [setOp_eq_ok cfg hbs0, h1, h2, h3]
    by_cases hp : 0 < ttl.getD cfg.defaultTTL <;>
      simp [hp, hs, hser, mapSet, stats0, empty0]
  rw [hset1]
  refine ⟨by simp [mapHas], ?_⟩
  have := getOp_mem_undef_purge cfg
    { cache := [(k, ⟨now1,
        if 0 < ttl.getD cfg.defaultTTL then some (now1 + ttl.getD cfg.defaultTTL) else none,
        0, []⟩)]
      timers := if 0 < ttl.getD cfg.defaultTTL then [(k, ttl.getD cfg.defaultTTL)] else []
      accessOrder := [(k, now1)]
      tagsMap := []
      stats := { stats0 with setCount := 1 }
      events := [.eset k]
      store := [(k, none)] } k now2
    ⟨now1,
      if 0 < ttl.getD cfg.defaultTTL then some (now1 + ttl.getD cfg.defaultTTL) else none,
      0, []⟩
    (by simp [mapGet]) (by simp) (by simp) (by simp [mapGet]) hs
  exact ⟨this.1, this.2.1, this.2.2.1, this.2.2.2⟩

/-- Witness for C10 at a concrete input. -/
theorem claimC10_witness :
    cfgU.serialize none = none ∧ cfgU.enableStats = true ∧
    (getOp cfgU (memB Nat) (setOp cfgU (memB Nat) (empty0 Nat) "k" none none [] none 0).1 "k" 1).2 = none := by
  refine ⟨rfl, rfl, ?_⟩
  exact (claimC10 cfgU "k" none none 0 1 rfl rfl).2.1

theorem errorCount_append (l l' : List Event) :
    errorCount (l ++ l') = errorCount l + errorCount l' := by
  simp [errorCount, List.countP_append]

theorem setPhase3_events {B : Backend S} (s : EngineState S B) (k : Key) :
    (setPhase3 s k).events = s.events := by
  unfold setPhase3
  by_cases h : mapHas s.timers k <;> simp [h]

theorem setPhase2_events_suffix (cfg : Config V S) (B : Backend S)
    (s : EngineState S B) (k : Key) :
    ∃ l, (setPhase2 cfg B s k).events = s.events ++ l := by
  unfold setPhase2
  by_cases h : cfg.maxSize ≤ s.cache.length ∧ mapHas s.cache k = false
  · simpa [h] using evictLRU_events_suffix cfg B s
  · exact ⟨[], by simp [h]⟩

/-- The `_evictLRU` victim scan, from an accumulator: the result is the
first entry attaining the minimal timestamp among the accumulator followed
by the rest of the list. -/
theorem findOldestAux :
    ∀ (l : List (Key × Int)) (q : Key × Int),
    ∃ p l1 l2,
      l.foldl (fun acc p =>
        match acc with
        | none => some p
        | some q => if p.2 < q.2 then some p else acc) (some q) = some p
      ∧ q :: l = l1 ++ p :: l2
      ∧ (∀ r ∈ l1, p.2 < r.2)
      ∧ (∀ r ∈ q :: l, p.2 ≤ r.2) := by
  intro l
  induction l with
  | nil =>
    intro q
    exact ⟨q, [], [], rfl, rfl, by simp, by simp⟩
  | cons a t ih =>
    intro q
    by_cases ha : a.2 < q.2
    · obtain ⟨p, l1, l2, hf, hd, hstrict, hle⟩ := ih a
      refine ⟨p, q :: l1, l2, ?_, ?_, ?_, ?_⟩
      · simpa [List.foldl_cons, ha] using hf
      · simp [hd]
      · intro r hr
        rcases List.mem_cons.mp hr with rfl | hr
        · exact lt_of_le_of_lt (hle a (by simp)) ha
        · exact hstrict r hr
      · intro r hr
        rcases List.mem_cons.mp hr with rfl | hr
        · exact le_of_lt (lt_of_le_of_lt (hle a (by simp)) ha)
        · exact hle r hr
    · obtain ⟨p, l1, l2, hf, hd, hstrict, hle⟩ := ih q
      have hqa : q.2 ≤ a.2 := le_of_not_lt ha
      cases l1 with
      | nil =>
        simp only [List.nil_append] at hd
        obtain ⟨hqp, htl2⟩ := List.cons_eq_cons.mp hd
        have hqp2 : p.2 = q.2 := by rw [hqp]
        refine ⟨p, [], a :: t, ?_, ?_, by simp, ?_⟩
        · simpa [List.foldl_cons, ha] using hf
        · simp [hqp]
        · intro r hr
          rcases List.mem_cons.mp hr with rfl | hr
          · exact le_of_eq hqp2
          · rcases List.mem_cons.mp hr with rfl | hr
            · exact hqp2 ▸ hqa
            · exact hle r (by simp [hr])
      | cons b m =>
        obtain ⟨hqb, htm⟩ := List.cons_eq_cons.mp (by simpa using hd)
        subst hqb
        have hpq : p.2 < q.2 := hstrict q (by simp)
        refine ⟨p, q :: a :: m, l2, ?_, ?_, ?_, ?_⟩
        · simpa [List.foldl_cons, ha] using hf
        · simp [htm]
        · intro r hr
          rcases List.mem_cons.mp hr with rfl | hr
          · exact hpq
          · rcases List.mem_cons.mp hr with rfl | hr
            · exact lt_of_lt_of_le hpq hqa
            · exact hstrict r (by simp [hr])
        · intro r hr
          rcases List.mem_cons.mp hr with rfl | hr
          · exact hle r (by simp)
          · rcases List.mem_cons.mp hr with rfl | hr
            · exact le_of_lt (lt_of_lt_of_le hpq hqa)
            · exact hle r (List.mem_cons_of_mem _ hr)

theorem mapHas_of_mem {α : Type} {m : List (String × α)} {p : String × α}
    (h : p ∈ m) : mapHas m p.1 = true := by
  induction m with
  | nil => simp at h
  | cons q t ih =>
    obtain ⟨k', v'⟩ := q
    rcases List.mem_cons.mp h with rfl | h
    · simp [mapHas]
    · by_cases hk : k' = p.1 <;> simp [mapHas, hk, ih h]

theorem mapHas_mapDelete_imp {α : Type} {m : List (String × α)} {k0 kk : String}
    (h : mapHas (mapDelete m k0) kk = true) : mapHas m kk = true := by
  rw [mapHas_eq_isSome] at h
  obtain ⟨v, hv⟩ := Option.isSome_iff_exists.mp h
  exact mapHas_of_mem (mem_mapDelete (mapGet_mem hv))

theorem findOldest_cons (a : Key × Int) (t : List (Key × Int)) :
    ∃ p, findOldest (a :: t) = some p ∧ p ∈ a :: t ∧ p.1 ∈ (a :: t).map Prod.fst := by
  obtain ⟨p, l1, l2, hf, hd, _, _⟩ := findOldestAux t a
  refine ⟨p, hf, ?_, ?_⟩
  · rw [hd]; simp
  · rw [hd]; simp

/-- With the memory adapter, evicting from a non-empty, well-formed access
order removes exactly one metadata entry, emits exactly one `evicted`
notification, and introduces no new keys. -/
theorem evictLRU_spec (cfg : Config V S) (s : EngineState S (memB S))
    (hne : s.accessOrder ≠ [])
    (hall : ∀ p ∈ s.accessOrder, p.1 ≠ "")
    (hagree : ∀ kk, mapHas s.accessOrder kk = true → mapHas s.cache kk = true) :
    (evictLRU cfg (memB S) s).cache.length + 1 = s.cache.length
    ∧ evictedCount ((evictLRU cfg (memB S) s).events) = evictedCount s.events + 1
    ∧ (∀ kk, mapHas (evictLRU cfg (memB S) s).cache kk = true →
        mapHas s.cache kk = true) := by
  cases hao : s.accessOrder with
  | nil => exact absurd hao hne
  | cons a t =>
    obtain ⟨p, hf, hmem, _⟩ := findOldest_cons a t
    have hfo : findOldest s.accessOrder = some p := by rw [hao]; exact hf
    have hvne : p.1 ≠ "" := hall p (by rw [hao]; exact hmem)
    have hhasao : mapHas s.accessOrder p.1 = true := by
      rw [hao]; exact mapHas_of_mem hmem
    have hhasc : mapHas s.cache p.1 = true := hagree _ hhasao
    rw [mapHas_eq_isSome] at hhasc
    obtain ⟨item, hg⟩ := Option.isSome_iff_exists.mp hhasc
    have hdel := deleteOp_eq_ok cfg (B := memB S) (s := s) (k := p.1) hg rfl
    have hie : s.accessOrder.isEmpty = false := by rw [hao]; rfl
    have hlen : mapHas s.cache p.1 = true := by
      rw [mapHas_eq_isSome, hg]; rfl
    obtain ⟨vk, tstamp⟩ := p
    constructor
    · simp only [evictLRU, hie, hfo, Bool.false_eq_true, if_false, if_neg hvne, hdel]
      simpa using mapDelete_length_of_has hlen
    constructor
    · simp only [evictLRU, hie, hfo, Bool.false_eq_true, if_false, if_neg hvne, hdel]
      simp [evictedCount, List.countP_append]
    · intro kk hk
      simp only [evictLRU, hie, hfo, Bool.false_eq_true, if_false, if_neg hvne, hdel] at hk
      exact mapHas_mapDelete_imp (by simpa using hk)

theorem setPhase3_cache {B : Backend S} (s : EngineState S B) (k : Key) :
    (setPhase3 s k).cache = s.cache := by
  unfold setPhase3
  by_cases h : mapHas s.timers k <;> simp [h]

theorem setPhase3_accessOrder {B : Backend S} (s : EngineState S B) (k : Key) :
    (setPhase3 s k).accessOrder = s.accessOrder := by
  unfold setPhase3
  by_cases h : mapHas s.timers k <;> simp [h]

/-- A `set` whose condition predicate evaluates to true behaves exactly
like a `set` with no condition. -/
theorem setOp_cond_true (cfg : Config V S) (B : Backend S)
    (s : EngineState S B) (k : Key) (v : V) (ttl : Option Int)
    (tags : List Tag) (c : Key → V → Bool) (now : Int) (hc : c k v = true) :
    setOp cfg B s k v ttl tags (some c) now
      = setOp cfg B s k v ttl tags none now := by
  simp [setOp, hc]

theorem addTagStep_cache_le (cfg : Config V S) (B : Backend S) (k : Key)
    (s : EngineState S B) (tag : Tag) :
    (addTagStep cfg B k s tag).cache.length ≤ s.cache.length := by
  unfold addTagStep
  simp only
  split
  · exact Nat.le_refl _
  · split
    · split
      · exact Nat.le_refl _
      · split
        · exact Nat.le_refl _
        · by_cases hs : cfg.enableStats <;>
            simpa [hs] using deleteOp_cache_length_le cfg B
              { s with tagsMap := mapSet s.tagsMap tag (setAdd ((mapGet s.tagsMap tag).getD []) k) } _
    · exact Nat.le_refl _

theorem foldlAddTag_cache_le (cfg : Config V S) (B : Backend S) (k : Key) :
    ∀ (tags : List Tag) (s : EngineState S B),
    (tags.foldl (addTagStep cfg B k) s).cache.length ≤ s.cache.length := by
  intro tags
  induction tags with
  | nil => intro s; exact le_refl _
  | cons tag rest ih =>
    intro s
    rw [List.foldl_cons]
    exact le_trans (ih _) (addTagStep_cache_le cfg B k s tag)

/-- Final metadata map of a memory-backed `set` without condition: the
tags loop applied to the state after insertion. -/
theorem setOp_mem_final_cache (cfg : Config V S) (s : EngineState S (memB S))
    (k : Key) (v : V) (ttl : Option Int) (tags : List Tag) (now : Int) :
    ((setOp cfg (memB S) s k v ttl tags none now).1).cache
      = (tags.foldl (addTagStep cfg (memB S) k)
          { setPhase3 (setPhase2 cfg (memB S) (setPhase1 s k) k) k with
            store := mapSet (setPhase3 (setPhase2 cfg (memB S) (setPhase1 s k) k) k).store k (cfg.serialize v)
            cache := mapSet (setPhase3 (setPhase2 cfg (memB S) (setPhase1 s k) k) k).cache k
              ⟨now, if 0 < ttl.getD cfg.defaultTTL then some (now + ttl.getD cfg.defaultTTL) else none, 0, tags⟩
            accessOrder := mapSet (setPhase3 (setPhase2 cfg (memB S) (setPhase1 s k) k) k).accessOrder k now }).cache := by
  rw [setOp_eq_ok cfg rfl]
  simp only
  by_cases hp : 0 < ttl.getD cfg.defaultTTL <;> by_cases hs : cfg.enableStats <;>
    simp [hp, hs]

/-- Final notification log of a memory-backed `set` without condition. -/
theorem setOp_mem_final_events (cfg : Config V S) (s : EngineState S (memB S))
    (k : Key) (v : V) (ttl : Option Int) (tags : List Tag) (now : Int) :
    ((setOp cfg (memB S) s k v ttl tags none now).1).events
      = (tags.foldl (addTagStep cfg (memB S) k)
          { setPhase3 (setPhase2 cfg (memB S) (setPhase1 s k) k) k with
            store := mapSet (setPhase3 (setPhase2 cfg (memB S) (setPhase1 s k) k) k).store k (cfg.serialize v)
            cache := mapSet (setPhase3 (setPhase2 cfg (memB S) (setPhase1 s k) k) k).cache k
              ⟨now, if 0 < ttl.getD cfg.defaultTTL then some (now + ttl.getD cfg.defaultTTL) else none, 0, tags⟩
            accessOrder := mapSet (setPhase3 (setPhase2 cfg (memB S) (setPhase1 s k) k) k).accessOrder k now }).events
        ++ [.eset k] := by
  rw [setOp_eq_ok cfg rfl]
  simp only
  by_cases hp : 0 < ttl.getD cfg.defaultTTL <;> by_cases hs : cfg.enableStats <;>
    simp [hp, hs]

/-- C6: capacity bound. (a) For every configured `maxSize m ≥ 1`, a
completed memory-backed `set` (with or without a condition) keeps the
number of metadata entries at most `m`. (b) A `set` of a new key when the
cache holds exactly `m` entries performs exactly one LRU eviction and
leaves exactly `m` entries. (c) A `set` updating an already-present key
triggers no capacity eviction and leaves the entry count unchanged. -/
theorem claimC6 (cfg : Config V S) (s : EngineState S (memB S)) (k : Key)
    (v : V) (ttl : Option Int) (tags : List Tag) (now : Int)
    (hm : 1 ≤ cfg.maxSize)
    (hka : keysAgreeB s = true)
    (hno : s.accessOrder.all (fun p => p.fst != "") = true) :
    (∀ (cond : Option (Key → V → Bool)), s.cache.length ≤ cfg.maxSize →
      ((setOp cfg (memB S) s k v ttl tags cond now).1).cache.length ≤ cfg.maxSize)
    ∧ (mapHas s.cache k = false → s.cache.length = cfg.maxSize →
        cfg.maxEntriesPerTag = [] →
        evictedCount ((setOp cfg (memB S) s k v ttl tags none now).1).events
          = evictedCount s.events + 1
        ∧ ((setOp cfg (memB S) s k v ttl tags none now).1).cache.length = cfg.maxSize)
    ∧ (mapHas s.cache k = true → cfg.maxEntriesPerTag = [] →
        evictedCount ((setOp cfg (memB S) s k v ttl tags none now).1).events
          = evictedCount s.events
        ∧ ((setOp cfg (memB S) s k v ttl tags none now).1).cache.length
          = s.cache.length) := by
  simp only [keysAgreeB, Bool.and_eq_true, List.all_eq_true] at hka
  obtain ⟨hca, hac⟩ := hka
  simp only [List.all_eq_true, bne_iff_ne, ne_eq] at hno
  have f1c := (setPhase1_fields s k).1
  have f1a := (setPhase1_fields s k).2.2.1
  have f1e := (setPhase1_fields s k).2.2.2.2.1
  have hagree : ∀ kk, mapHas s.accessOrder kk = true → mapHas s.cache kk = true := by
    intro kk h
    rw [mapHas_eq_isSome] at h
    obtain ⟨t, ht⟩ := Option.isSome_iff_exists.mp h
    exact hac _ (mapGet_mem ht)
  have factE : mapHas s.cache k = false → cfg.maxSize ≤ s.cache.length →
      (setPhase2 cfg (memB S) (setPhase1 s k) k).cache.length + 1 = s.cache.length
      ∧ evictedCount (setPhase2 cfg (memB S) (setPhase1 s k) k).events
        = evictedCount s.events + 1
      ∧ mapHas (setPhase2 cfg (memB S) (setPhase1 s k) k).cache k = false := by
    intro hhas hlen
    have h2eq : setPhase2 cfg (memB S) (setPhase1 s k) k
        = evictLRU cfg (memB S) (setPhase1 s k) := by
      unfold setPhase2
      rw [if_pos]
      exact ⟨by rw [f1c]; exact hlen, by rw [f1c]; exact hhas⟩
    have hcne : s.cache ≠ [] := by
      intro hnil
      rw [hnil] at hlen
      simp at hlen
      omega
    have haone : s.accessOrder ≠ [] := by
      obtain ⟨p, hp⟩ := List.exists_mem_of_ne_nil _ hcne
      have hmem := hca p hp
      intro hnil
      rw [hnil] at hmem
      simp [mapHas] at hmem
    have hspec := evictLRU_spec cfg (setPhase1 s k)
      (by rw [f1a]; exact haone)
      (by rw [f1a]; exact hno)
      (by intro kk h; rw [f1a] at h; rw [f1c]; exact hagree kk h)
    rw [h2eq]
    refine ⟨?_, ?_, ?_⟩
    · rw [f1c] at hspec
      exact hspec.1
    · rw [f1e] at hspec
      exact hspec.2.1
    · cases hres : mapHas (evictLRU cfg (memB S) (setPhase1 s k)).cache k
      · rfl
      · have hc := hspec.2.2 k hres
        rw [f1c] at hc
        rw [hc] at hhas
        exact absurd hhas (by simp)
  have factU : mapHas s.cache k = true →
      setPhase2 cfg (memB S) (setPhase1 s k) k = setPhase1 s k := by
    intro hhas
    unfold setPhase2
    rw [if_neg]
    rintro ⟨_, hb⟩
    rw [f1c, hhas] at hb
    exact absurd hb (by simp)
  have factL : ¬ cfg.maxSize ≤ s.cache.length →
      setPhase2 cfg (memB S) (setPhase1 s k) k = setPhase1 s k := by
    intro hlen
    unfold setPhase2
    rw [if_neg]
    rintro ⟨ha, _⟩
    rw [f1c] at ha
    exact hlen ha
  have parta : s.cache.length ≤ cfg.maxSize →
      ((setOp cfg (memB S) s k v ttl tags none now).1).cache.length
        ≤ cfg.maxSize := by
    intro hbound
    rw [setOp_mem_final_cache]
    refine le_trans (foldlAddTag_cache_le cfg (memB S) k tags _) ?_
    dsimp only
    rw [mapSet_length, setPhase3_cache]
    by_cases hhas : mapHas s.cache k = true
    · rw [factU hhas, f1c, hhas]
      simpa [f1c] using hbound
    · have hhasf : mapHas s.cache k = false := by simpa using hhas
      by_cases hlen : cfg.maxSize ≤ s.cache.length
      · have hE := factE hhasf hlen
        rw [hE.2.2]
        simp only [Bool.false_eq_true, if_false]
        omega
      · rw [factL hlen, f1c, hhasf]
        simp only [Bool.false_eq_true, if_false]
        omega
  have hesetCount : ∀ (l : List Event),
      evictedCount (l ++ [Event.eset k]) = evictedCount l := by
    intro l
    simp [evictedCount, List.countP_append]
  refine ⟨?_, ?_, ?_⟩
  · intro cond hbound
    cases cond with
    | none => exact parta hbound
    | some c =>
      cases hc : c k v
      · have heq : setOp cfg (memB S) s k v ttl tags (some c) now
            = (s, .jbool false) := by simp [setOp, hc]
        rw [heq]
        exact hbound
      · rw [setOp_cond_true cfg (memB S) s k v ttl tags c now hc]
        exact parta hbound
  · intro hhas hlen hcap
    have hE := factE hhas (le_of_eq hlen.symm)
    constructor
    · rw [setOp_mem_final_events,
        (foldlAddTag_fields k hcap tags _).2.2.2.2.1]
      dsimp only
      rw [hesetCount, setPhase3_events]
      exact hE.2.1
    · rw [setOp_mem_final_cache, (foldlAddTag_fields k hcap tags _).1]
      dsimp only
      rw [mapSet_length, setPhase3_cache, hE.2.2]
      simp only [Bool.false_eq_true, if_false]
      omega
  · intro hhas hcap
    constructor
    · rw [setOp_mem_final_events,
        (foldlAddTag_fields k hcap tags _).2.2.2.2.1]
      dsimp only
      rw [hesetCount, setPhase3_events, factU hhas, f1e]
    · rw [setOp_mem_final_cache, (foldlAddTag_fields k hcap tags _).1]
      dsimp only
      rw [mapSet_length, setPhase3_cache, factU hhas, f1c, hhas]
      simp [f1c]

/-- Witness for C6 at a concrete input. -/
theorem claimC6_witness :
    ((setOp cfgN (memB Nat) (empty0 Nat) "k" 0 none [] none 0).1).cache.length
      ≤ cfgN.maxSize := by
  have h := claimC6 cfgN (empty0 Nat) "k" 0 none [] 0 (by decide) (by decide)
    (by decide)
  exact h.1 none (by decide)

/-- C4 amended: a thrown backend operation never escapes `get`, `set` or
`delete`; each catches it and additionally emits an `error` notification.
`get` degrades to `undefined`; but `set` and `delete` return the engine
(`this`) from their catch blocks — the same value as on success — not
`false`. -/
theorem claimC4 (cfg : Config V S) (s : EngineState S (throwB S)) (k : Key)
    (v : V) (ttl : Option Int) (tags : List Tag) (now : Int)
    (hk : mapHas s.cache k = true) :
    (getOp cfg (throwB S) s k now).2 = none
    ∧ errorCount s.events < errorCount ((getOp cfg (throwB S) s k now).1).events
    ∧ (setOp cfg (throwB S) s k v ttl tags none now).2 = .self
    ∧ errorCount s.events
      < errorCount ((setOp cfg (throwB S) s k v ttl tags none now).1).events
    ∧ (deleteOp cfg (throwB S) s k).2 = .self
    ∧ errorCount s.events < errorCount ((deleteOp cfg (throwB S) s k).1).events := by
  rw [mapHas_eq_isSome] at hk
  obtain ⟨item, hg⟩ := Option.isSome_iff_exists.mp hk
  have hdel := deleteOp_eq_err cfg (B := throwB S) (s := s) (k := k) hg rfl
  have hget : (getOp cfg (throwB S) s k now).2 = none
      ∧ errorCount s.events < errorCount ((getOp cfg (throwB S) s k now).1).events := by
    have hg' : mapGet (EngineState.cache
        { s with stats := { s.stats with totalAccesses := s.stats.totalAccesses + 1 } }) k
        = some item := hg
    have hdel' := deleteOp_eq_err cfg (B := throwB S)
      (s := { s with stats := { s.stats with totalAccesses := s.stats.totalAccesses + 1 } })
      (k := k) hg' rfl
    have hbg : ∀ (st : (throwB S).St) (kk : Key),
        (throwB S).bget st kk = Except.error () := fun _ _ => rfl
    by_cases hs : cfg.enableStats <;> by_cases hexp : isExpired item.expiresAt now = true <;>
      constructor <;>
        simp [getOp, hs, hg, hg', hexp, hdel, hdel', hbg, errorCount,
          List.countP_append, List.countP_cons]
  have hset : (setOp cfg (throwB S) s k v ttl tags none now).2 = .self
      ∧ errorCount s.events
        < errorCount ((setOp cfg (throwB S) s k v ttl tags none now).1).events := by
    have hbs : (throwB S).bset
        (setPhase3 (setPhase2 cfg (throwB S) (setPhase1 s k) k) k).store k
        (cfg.serialize v) = Except.error () := rfl
    obtain ⟨l2, hl2⟩ := setPhase2_events_suffix cfg (throwB S) (setPhase1 s k) k
    have h1 := (setPhase1_fields s k).2.2.2.2.1
    constructor
    · rw [setOp_eq_err cfg hbs]
    · rw [setOp_eq_err cfg hbs]
      simp only [setPhase3_events, hl2, h1, errorCount_append, errorCount]
      simp
  exact ⟨hget.1, hget.2, hset.1, hset.2, by rw [hdel],
    by rw [hdel]; simp [errorCount_append, errorCount]⟩

/-- C4 counterexample: with a throwing backend, `set` and `delete` do not
return `false` — both return the engine (`this`), even though the `error`
notification is emitted. -/
theorem claimC4_cx :
    (setOp cfgN (throwB Nat) (emptyT Nat) "k" 1 none [] none 0).2 = JsRet.self
    ∧ (setOp cfgN (throwB Nat) (emptyT Nat) "k" 1 none [] none 0).2 ≠ JsRet.jbool false
    ∧ errorCount ((setOp cfgN (throwB Nat) (emptyT Nat) "k" 1 none [] none 0).1).events = 1
    ∧ (deleteOp cfgN (throwB Nat)
        ⟨[("k", ⟨0, none, 0, []⟩)], [], [("k", 0)], [], stats0, [], ()⟩ "k").2
      ≠ JsRet.jbool false := by
  refine ⟨by decide, by decide, by decide, by decide⟩

/-- C7: LRU victim selection. (1) On every non-empty AccessOrder,
`_evictLRU`'s scan selects an entry with the smallest last-access
timestamp, and among entries sharing that timestamp the first indexed one
(everything before the victim in insertion order is strictly younger).
(2) Concretely, with `maxSize = 2`, inserting k1, k2, k3 in order evicts
exactly k1, leaving k2 and k3 present. -/
theorem claimC7 :
    (∀ (l : List (Key × Int)), l ≠ [] →
      ∃ p l1 l2, findOldest l = some p ∧ l = l1 ++ p :: l2
        ∧ (∀ q ∈ l1, p.2 < q.2) ∧ (∀ q ∈ l, p.2 ≤ q.2))
    ∧ mapHas lruScenario.cache "k1" = false
    ∧ mapHas lruScenario.cache "k2" = true
    ∧ mapHas lruScenario.cache "k3" = true
    ∧ evictedCount lruScenario.events = 1
    ∧ Event.eevicted "k1" ∈ lruScenario.events := by
  constructor
  · intro l hl
    cases l with
    | nil => exact absurd rfl hl
    | cons a t =>
      obtain ⟨p, l1, l2, hf, hd, hstrict, hle⟩ := findOldestAux t a
      exact ⟨p, l1, l2, hf, hd, hstrict, hle⟩
  · refine ⟨by decide, by decide, by decide, by decide, by decide⟩

/-- Witness for C7: the victim-selection clause applied at a concrete
non-empty access order. -/
theorem claimC7_witness :
    ∃ p l1 l2, findOldest [("a", (5 : Int)), ("b", (3 : Int))] = some p
      ∧ [("a", (5 : Int)), ("b", (3 : Int))] = l1 ++ p :: l2
      ∧ (∀ q ∈ l1, p.2 < q.2)
      ∧ (∀ q ∈ [("a", (5 : Int)), ("b", (3 : Int))], p.2 ≤ q.2) :=
  claimC7.1 [("a", 5), ("b", 3)] (by simp)

/-- One hit step of the statistics trace: metadata shape preserved with
`accessCount` bumped; hits up by one, misses unchanged. -/
theorem c9_hit_step (s : EngineState Nat (memB Nat)) (c : Nat)
    (h1 : s.cache = [("k", ⟨0, none, c, []⟩)])
    (h2 : s.store = [("k", some 5)]) :
    ((getOp cfgN (memB Nat) s "k" 0).1).cache = [("k", ⟨0, none, c + 1, []⟩)]
    ∧ ((getOp cfgN (memB Nat) s "k" 0).1).store = [("k", some 5)]
    ∧ ((getOp cfgN (memB Nat) s "k" 0).1).stats.hits = s.stats.hits + 1
    ∧ ((getOp cfgN (memB Nat) s "k" 0).1).stats.misses = s.stats.misses := by
  refine ⟨?_, ?_, ?_, ?_⟩ <;>
    simp [getOp, cfgN, memB, h1, h2, mapGet, mapSet, isExpired]

/-- One miss step of the statistics trace: state untouched except the
counters; misses up by one, hits unchanged. -/
theorem c9_miss_step (s : EngineState Nat (memB Nat))
    (h1 : mapGet s.cache "absent" = none) :
    ((getOp cfgN (memB Nat) s "absent" 0).1).cache = s.cache
    ∧ ((getOp cfgN (memB Nat) s "absent" 0).1).store = s.store
    ∧ ((getOp cfgN (memB Nat) s "absent" 0).1).stats.hits = s.stats.hits
    ∧ ((getOp cfgN (memB Nat) s "absent" 0).1).stats.misses = s.stats.misses + 1 := by
  refine ⟨?_, ?_, ?_, ?_⟩ <;>
    simp [getOp, cfgN, h1]

theorem applyHits_spec :
    ∀ (n : Nat) (s : EngineState Nat (memB Nat)) (c : Nat),
    s.cache = [("k", ⟨0, none, c, []⟩)] → s.store = [("k", some 5)] →
    (applyHits n s).cache = [("k", ⟨0, none, c + n, []⟩)]
    ∧ (applyHits n s).store = [("k", some 5)]
    ∧ (applyHits n s).stats.hits = s.stats.hits + n
    ∧ (applyHits n s).stats.misses = s.stats.misses := by
  intro n
  induction n with
  | zero => intro s c h1 h2; exact ⟨h1, h2, rfl, rfl⟩
  | succ n ih =>
    intro s c h1 h2
    obtain ⟨g1, g2, g3, g4⟩ := c9_hit_step s c h1 h2
    obtain ⟨r1, r2, r3, r4⟩ := ih _ (c + 1) g1 g2
    have hcn : c + 1 + n = c + (n + 1) := by omega
    simp only [applyHits]
    refine ⟨by rw [r1, hcn], r2, ?_, by rw [r4, g4]⟩
    rw [r3, g3]
    omega

theorem applyMisses_spec :
    ∀ (n : Nat) (s : EngineState Nat (memB Nat)),
    mapGet s.cache "absent" = none →
    (applyMisses n s).cache = s.cache
    ∧ (applyMisses n s).stats.hits = s.stats.hits
    ∧ (applyMisses n s).stats.misses = s.stats.misses + n := by
  intro n
  induction n with
  | zero => intro s h1; exact ⟨rfl, rfl, rfl⟩
  | succ n ih =>
    intro s h1
    obtain ⟨g1, _, g3, g4⟩ := c9_miss_step s h1
    obtain ⟨r1, r2, r3⟩ := ih _ (by rw [g1]; exact h1)
    simp only [applyMisses]
    refine ⟨by rw [r1, g1], by rw [r2, g3], ?_⟩
    rw [r3, g4]
    omega

/-- C9: after exactly `H` hits and `M` misses with no resets in between,
the statistics snapshot reports `hits = H`, `misses = M`, and
`hitRate = H / (H + M)`, which is `0` when both counters are `0`. -/
theorem claimC9 (H M : Nat) :
    (hitMissTrace H M).stats.hits = H
    ∧ (hitMissTrace H M).stats.misses = M
    ∧ hitRate (hitMissTrace H M).stats = (H : ℚ) / ((H : ℚ) + (M : ℚ))
    ∧ (H = 0 → M = 0 → hitRate (hitMissTrace H M).stats = 0) := by
  have hb1 : c9base.cache = [("k", ⟨0, none, 0, []⟩)] := by rfl
  have hb2 : c9base.store = [("k", some 5)] := by rfl
  have hb3 : c9base.stats.hits = 0 := by rfl
  have hb4 : c9base.stats.misses = 0 := by rfl
  obtain ⟨h1, h2, h3, h4⟩ := applyHits_spec H c9base 0 hb1 hb2
  obtain ⟨m1, m2, m3⟩ := applyMisses_spec M (applyHits H c9base)
    (by rw [h1]; simp [mapGet])
  have hhits : (hitMissTrace H M).stats.hits = H := by
    unfold hitMissTrace
    rw [m2, h3, hb3]
    omega
  have hmiss : (hitMissTrace H M).stats.misses = M := by
    unfold hitMissTrace
    rw [m3, h4, hb4]
    omega
  refine ⟨hhits, hmiss, ?_, ?_⟩
  · unfold hitRate
    rw [hhits, hmiss]
    by_cases hz : H + M = 0
    · have hH : H = 0 := by omega
      have hM : M = 0 := by omega
      simp [hH, hM]
    · rw [if_neg hz]
  · intro hH hM
    unfold hitRate
    rw [hhits, hmiss, hH, hM]
    simp

/-- Witness for C9: the zero-counter clause at `H = M = 0`. -/
theorem claimC9_witness : hitRate (hitMissTrace 0 0).stats = 0 :=
  (claimC9 0 0).2.2.2 rfl rfl

/-- Witness for C4 at a concrete input. -/
theorem claimC4_witness :
    (getOp cfgN (throwB Nat)
      ⟨[("k", ⟨0, none, 0, []⟩)], [], [("k", 0)], [], stats0, [], ()⟩ "k" 1).2 = none := by
  have h := claimC4 cfgN
    ⟨[("k", ⟨0, none, 0, []⟩)], [], [("k", 0)], [], stats0, [], ()⟩ "k" 1 none [] 1
    (by decide)
  exact h.1

/-- C3: the TagIndex invariant is NOT preserved by every operation.
`clear` (lines 515–536) resets the backend, timers, metadata and access
order but never touches `tagsMap`: after `set("a", 1, null, ["t"])`
followed by `clear()`, the metadata store is empty while the tag index
still maps `"t"` to `{"a"}` — a key is a member of `TagIndex[tag]` with no
metadata entry for it, violating the stated invariant. -/
theorem claimC3_bug :
    (mapGet ((setOp cfgN (memB Nat) (empty0 Nat) "a" 1 none ["t"] none 0).1).cache "a"
        = some ⟨0, none, 0, ["t"]⟩
      ∧ mapGet ((setOp cfgN (memB Nat) (empty0 Nat) "a" 1 none ["t"] none 0).1).tagsMap "t"
        = some ["a"])
    ∧ ((clearOp cfgN (memB Nat) (setOp cfgN (memB Nat) (empty0 Nat) "a" 1 none ["t"] none 0).1).1).cache = []
    ∧ mapGet (((clearOp cfgN (memB Nat) (setOp cfgN (memB Nat) (empty0 Nat) "a" 1 none ["t"] none 0).1).1)).tagsMap "t"
      = some ["a"] := by
  refine ⟨⟨by decide, by decide⟩, by decide, by decide⟩

/-- C1 counterexample: `delete` does not return whether the key existed —
it returns the engine itself (`this`, for chaining) on both the absent and
the present path, never a boolean. -/
theorem claimC1_cx :
    (deleteOp cfgN (memB Nat) (empty0 Nat) "k").2 = JsRet.self
    ∧ (deleteOp cfgN (memB Nat) (empty0 Nat) "k").2 ≠ JsRet.jbool false
    ∧ (deleteOp cfgN (memB Nat)
        (setOp cfgN (memB Nat) (empty0 Nat) "k" 1 none [] none 0).1 "k").2
      ≠ JsRet.jbool true := by
  refine ⟨by decide, by decide, by decide⟩

/-- C1 amended: `delete` is idempotent. A call when the key is present
removes the metadata entry, the access-order entry, every tag-index
membership, and any armed timer, emits exactly one `delete` notification,
and returns the engine (`this`, not a boolean); a second consecutive call
— and more generally any call on an absent key — leaves the state exactly
unchanged, emits nothing, and likewise returns the engine. -/
theorem claimC1 (cfg : Config V S) (s s0 : EngineState S (memB S)) (k : Key)
    (hw : wfKeysB s = true) (ht : tagWFB s = true)
    (hk : mapHas s.cache k = true)
    (hk0 : mapHas s0.cache k = false) :
    (deleteOp cfg (memB S) s k).2 = .self
    ∧ mapHas ((deleteOp cfg (memB S) s k).1).cache k = false
    ∧ mapHas ((deleteOp cfg (memB S) s k).1).accessOrder k = false
    ∧ mapHas ((deleteOp cfg (memB S) s k).1).timers k = false
    ∧ (∀ t, k ∉ bucketOf ((deleteOp cfg (memB S) s k).1).tagsMap t)
    ∧ ((deleteOp cfg (memB S) s k).1).events = s.events ++ [.edel k]
    ∧ deleteOp cfg (memB S) ((deleteOp cfg (memB S) s k).1) k
      = ((deleteOp cfg (memB S) s k).1, .self)
    ∧ deleteOp cfg (memB S) s0 k = (s0, .self) := by
  simp only [wfKeysB, Bool.and_eq_true, decide_eq_true_eq] at hw
  obtain ⟨⟨hndc, hnda⟩, hndt⟩ := hw
  simp only [tagWFB, Bool.and_eq_true, decide_eq_true_eq, List.all_eq_true] at ht
  obtain ⟨⟨htk, htb⟩, hti⟩ := ht
  rw [mapHas_eq_isSome] at hk
  obtain ⟨item, hg⟩ := Option.isSome_iff_exists.mp hk
  have hdel := deleteOp_eq_ok cfg (B := memB S) (s := s) (k := k) hg rfl
  have htags : ∀ t, k ∉ bucketOf ((deleteOp cfg (memB S) s k).1).tagsMap t := by
    intro t
    rw [hdel]
    simp only
    by_cases hlen : 0 < item.tags.length
    · rw [if_pos hlen]
      refine removeKeyFromTags_not_mem item.tags s.tagsMap k htk
        (fun p hp => by simpa using htb p hp) ?_ t
      intro p hp hkp
      have := hti p hp k hkp
      rw [hg] at this
      simpa using this
    · rw [if_neg hlen]
      intro hkb
      unfold bucketOf at hkb
      cases hb : mapGet s.tagsMap t with
      | none => rw [hb] at hkb; simp at hkb
      | some ks =>
        rw [hb] at hkb
        have hmem := hti _ (mapGet_mem hb) k hkb
        rw [hg] at hmem
        simp only [decide_eq_true_eq] at hmem
        have hnil : item.tags = [] := List.eq_nil_of_length_eq_zero (by omega)
        rw [hnil] at hmem
        simp at hmem
  have hsecond : mapGet ((deleteOp cfg (memB S) s k).1).cache k = none := by
    rw [hdel]
    exact mapGet_mapDelete_self hndc
  refine ⟨by rw [hdel], ?_, ?_, ?_, htags, by rw [hdel], deleteOp_none hsecond, ?_⟩
  · rw [hdel]
    simpa using mapHas_mapDelete_self hndc
  · rw [hdel]
    simpa using mapHas_mapDelete_self hnda
  · rw [hdel]
    simp only
    by_cases hts : mapHas s.timers k
    · rw [if_pos hts]
      exact mapHas_mapDelete_self hndt
    · rw [if_neg hts]
      simpa using hts
  · refine deleteOp_none ?_
    rw [mapHas_eq_isSome] at hk0
    exact Option.not_isSome_iff_eq_none.mp (by simp [hk0])

/-- Witness for C1 at a concrete input. -/
theorem claimC1_witness :
    (deleteOp cfgN (memB Nat)
      (setOp cfgN (memB Nat) (empty0 Nat) "k" 1 none ["t"] none 0).1 "k").2 = JsRet.self := by
  have h := claimC1 cfgN
    (setOp cfgN (memB Nat) (empty0 Nat) "k" 1 none ["t"] none 0).1
    (empty0 Nat) "k" (by decide) (by decide) (by decide) (by decide)
  exact h.1

/-- Witness for C2 at a concrete input. -/
theorem claimC2_witness :
    (getOp cfgSlide (memB Nat)
      ⟨[("k", ⟨0, some 100, 0, []⟩)], [("k", 100)], [("k", 0)], [],
        stats0, [], [("k", some 7)]⟩ "k" 10).2 = some 7 := by
  have h := claimC2 cfgSlide
    ⟨[("k", ⟨0, some 100, 0, []⟩)], [("k", 100)], [("k", 0)], [],
      stats0, [], [("k", some 7)]⟩ "k" 10 ⟨0, some 100, 0, []⟩ 100 7 7
    (by decide) rfl (by decide) (by decide) rfl (by decide) rfl
  exact h.1

end Eca
